import Mathlib

/-!
Verification of the multi-level OBJ building-mesh generator.

The generator takes a number of sides `numSides` and a list of stacked
frustum levels (height, base radius, top radius), reduces the levels to a
de-duplicated list of rings (elevation, radius), samples each ring at
`numSides` angles to produce vertices, triangulates base cap, top cap and
lateral bands, and computes one flat normal per lateral triangle plus two
constant cap normals.

Numeric model: command-line parameters and ring data are embedded as exact
rationals (JavaScript number equality `===` on the parsed parameters is
exact equality, which `ℚ` models faithfully); geometric vertex and normal
data, which involve `cos`/`sin` and `sqrt`, are embedded over `ℝ`.
-/

namespace CG2

/-- A frustum level as parsed from the command line:
`{height, baseRadius, topRadius}`. -/
structure Level where
  height : ℚ
  baseRadius : ℚ
  topRadius : ℚ
deriving DecidableEq, Repr

/-- A ring `{y, r}`: a horizontal circular cross-section at elevation `y`
with radius `r`. -/
structure Ring where
  y : ℚ
  r : ℚ
deriving DecidableEq, Repr

/-- `isUniqueRing(rings, y, r)` from the source: returns `false` iff some
ring of `rings` has exactly this `y` and `r`. -/
def isUniqueRing (rings : List Ring) (y r : ℚ) : Bool :=
  rings.all fun ring => !(ring.y == y && ring.r == r)

/-- Loop body of `buildRings`: walks the levels keeping the running
elevation `currentY` and the rings accumulated so far.  For each level it
pushes the lower ring at `currentY` (guarded by `isUniqueRing`), advances
`currentY` by the level height, and pushes the upper ring at the new
elevation (guarded by the equivalent `rings.some(...)` test used in the
source). -/
def buildRingsAux : List Level → ℚ → List Ring → List Ring
  | [], _, rings => rings
  | l :: ls, currentY, rings =>
    let rings1 :=
      if isUniqueRing rings currentY l.baseRadius then
        rings ++ [⟨currentY, l.baseRadius⟩]
      else rings
    let newY := currentY + l.height
    let rings2 :=
      if rings1.any fun ring => ring.y == newY && ring.r == l.topRadius then
        rings1
      else rings1 ++ [⟨newY, l.topRadius⟩]
    buildRingsAux ls newY rings2

/-- `buildRings(levels)` from the source: starts at elevation 0 with no
rings. -/
def buildRings (levels : List Level) : List Ring :=
  buildRingsAux levels 0 []

/-- Modelled from the spec: the `V3` vector-math library
(`A01781166-3d-lib.js`) is imported by both generator scripts but its file
is not part of the sources; the spec describes it as "subtract, cross
product, normalize for 3-component float vectors.  Pure, stateless."  A
3-component vector. -/
@[ext]
structure V3 where
  x : ℝ
  y : ℝ
  z : ℝ

/-- Modelled from the spec: componentwise vector subtraction,
`V3.subtract(a, b) = a - b` (the source comments call
`V3.subtract(v2, v1)` "From v1 to v2"). -/
def V3.subtract (a b : V3) : V3 :=
  ⟨a.x - b.x, a.y - b.y, a.z - b.z⟩

/-- Modelled from the spec: the standard right-handed cross product. -/
def V3.cross (a b : V3) : V3 :=
  ⟨a.y * b.z - a.z * b.y, a.z * b.x - a.x * b.z, a.x * b.y - a.y * b.x⟩

/-- Euclidean length of a `V3`, used by `V3.normalize`. -/
noncomputable def V3.norm (a : V3) : ℝ :=
  Real.sqrt (a.x ^ 2 + a.y ^ 2 + a.z ^ 2)

/-- Modelled from the spec: normalize a vector to unit length by dividing
each component by the Euclidean length. -/
noncomputable def V3.normalize (a : V3) : V3 :=
  ⟨a.x / a.norm, a.y / a.norm, a.z / a.norm⟩

/-- Dot product, used to state the spec's orientation check
`normal · radialOutward`. -/
def V3.dot (a b : V3) : ℝ :=
  a.x * b.x + a.y * b.y + a.z * b.z

/-- The sample angle of index `i` out of `numSides`:
`i * angleStep` with `angleStep = 2π / numSides`. -/
noncomputable def sampleAngle (numSides i : ℕ) : ℝ :=
  i * (2 * Real.pi / numSides)

/-- One vertex of a ring: `[cos(angle)*r, y, sin(angle)*r]` from the inner
loop of `vertices`. -/
noncomputable def ringVertex (numSides : ℕ) (ring : Ring) (i : ℕ) : V3 :=
  ⟨Real.cos (sampleAngle numSides i) * (ring.r : ℝ), (ring.y : ℝ),
    Real.sin (sampleAngle numSides i) * (ring.r : ℝ)⟩

/-- The vertex list of `vertices(numSides, levels)` as a function of the
already-built ring list: the two center vertices `[0,0,0]` and
`[0,height,0]` (`height` being the last ring's elevation), followed by the
`numSides` samples of each ring in order. -/
noncomputable def verticesFromRings (numSides : ℕ) (rings : List Ring) : List V3 :=
  ⟨0, 0, 0⟩ ::
  ⟨0, (((rings.getLast?.map Ring.y).getD 0 : ℚ) : ℝ), 0⟩ ::
  rings.flatMap fun ring => (List.range numSides).map (ringVertex numSides ring)

/-- `vertices(numSides, levels)` from the source: builds the rings and
returns the vertex list together with the rings. -/
noncomputable def verticesFn (numSides : ℕ) (levels : List Level) :
    List V3 × List Ring :=
  (verticesFromRings numSides (buildRings levels), buildRings levels)

/-- `faces(numSides, rings)` from the source: returns
`(facesBase, facesTop, facesSides)`, each face a 1-based index triple.
`baseStart = 3` is the 1-based index of the first sample of ring 0;
ring `j`'s sample `i` has 1-based index `3 + j*numSides + i`. -/
def facesFn (numSides : ℕ) (rings : List Ring) :
    List (ℕ × ℕ × ℕ) × List (ℕ × ℕ × ℕ) × List (ℕ × ℕ × ℕ) :=
  let centerBaseIdx := 1
  let centerTopIdx := 2
  let baseStart := 3
  let numRings := rings.length
  let bottomRing := 0
  let topRing := numRings - 1
  let facesBase := (List.range numSides).map fun i =>
    (centerBaseIdx,
     baseStart + bottomRing * numSides + (i + 1) % numSides,
     baseStart + bottomRing * numSides + i)
  let facesTop := (List.range numSides).map fun i =>
    (centerTopIdx,
     baseStart + topRing * numSides + i,
     baseStart + topRing * numSides + (i + 1) % numSides)
  let facesSides := (List.range (numRings - 1)).flatMap fun j =>
    (List.range numSides).flatMap fun i =>
      [(baseStart + j * numSides + i,
        baseStart + j * numSides + (i + 1) % numSides,
        baseStart + (j + 1) * numSides + (i + 1) % numSides),
       (baseStart + j * numSides + i,
        baseStart + (j + 1) * numSides + (i + 1) % numSides,
        baseStart + (j + 1) * numSides + i)]
  (facesBase, facesTop, facesSides)

/-- The un-normalized lateral normal computed inside `normals` for band
`j` (between rings `j` and `j+1`) at sample `i`: the first triangle of the
side quad is `(baseCurrent, baseNext, topNext)`, its vertices are looked
up in the vertex list (1-based index minus one), and the cross product of
the edge vectors `v1→v2` and `v1→v3` is taken. -/
noncomputable def lateralCross (numSides : ℕ) (verts : List V3) (j i : ℕ) : V3 :=
  let baseStart := 3
  let baseCurrent := baseStart + j * numSides + i
  let baseNext := baseStart + j * numSides + (i + 1) % numSides
  let topNext := baseStart + (j + 1) * numSides + (i + 1) % numSides
  let v1 := (verts[baseCurrent - 1]?).getD ⟨0, 0, 0⟩
  let v2 := (verts[baseNext - 1]?).getD ⟨0, 0, 0⟩
  let v3 := (verts[topNext - 1]?).getD ⟨0, 0, 0⟩
  V3.cross (V3.subtract v2 v1) (V3.subtract v3 v1)

/-- `normals(numSides, vertices, rings)` from the source: returns
`(normals, baseNormalIdx, topNormalIdx, sideNormalIdx)`.  The normal list
is the constant base normal `[0,-1,0]`, the constant top normal
`[0,1,0]`, then one normalized lateral cross product per band and sample;
`sideNormalIdx` records the 1-based position of each lateral normal
(`normals.length` right after the push, i.e. `2 + (j*numSides + i) + 1`). -/
noncomputable def normalsFn (numSides : ℕ) (verts : List V3) (rings : List Ring) :
    List V3 × ℕ × ℕ × List ℕ :=
  let numRings := rings.length
  let laterals := (List.range (numRings - 1)).flatMap fun j =>
    (List.range numSides).map fun i =>
      V3.normalize (lateralCross numSides verts j i)
  let sideNormalIdx := (List.range (numRings - 1)).flatMap fun j =>
    (List.range numSides).map fun i => 2 + (j * numSides + i) + 1
  (⟨0, -1, 0⟩ :: ⟨0, 1, 0⟩ :: laterals, 1, 2, sideNormalIdx)

/-- The normal index paired with lateral triangle `t` when `createOBJ`
writes the side faces: `sideNormalIdx[Math.floor(t / 2)]`, so the two
triangles of one side quad share a normal. -/
def sideFaceNormalIndex (sideNormalIdx : List ℕ) (t : ℕ) : Option ℕ :=
  sideNormalIdx[t / 2]?

/-- Command-line model: the numeric values parsed from
`process.argv.slice(2)`.  `argv` strings are non-empty, so the JavaScript
truthiness test `args[i] ? parse(args[i]) : default` is a presence test,
modelled by `List.getElem?` with `Option.getD`. -/
def argNumSides (args : List ℚ) : ℚ := (args[0]?).getD 8

/-- Second argument or its default: the base building height. -/
def argHeight (args : List ℚ) : ℚ := (args[1]?).getD 6

/-- Third argument or its default: the base radius. -/
def argBaseRadius (args : List ℚ) : ℚ := (args[2]?).getD 1

/-- Fourth argument or its default: the top radius. -/
def argTopRadius (args : List ℚ) : ℚ := (args[3]?).getD 0.8

/-- Fifth argument or its default: the number of additional levels. -/
def argNumLevels (args : List ℚ) : ℚ := (args[4]?).getD 0

/-- Level `i`'s parameters inside the `getInputs` loop: each of the three
positional arguments `args[5+i*3]`, `args[6+i*3]`, `args[7+i*3]` falls
back to the base building's height / baseRadius / topRadius when absent. -/
def levelAt (args : List ℚ) (height baseRadius topRadius : ℚ) (i : ℕ) : Level :=
  ⟨(args[5 + i * 3]?).getD height,
   (args[6 + i * 3]?).getD baseRadius,
   (args[7 + i * 3]?).getD topRadius⟩

/-- The `getInputs` level loop from index `i` for `n` more iterations:
validates each level's parameters (exiting with an error on the first
non-positive one, as `process.exit(1)` does) and collects the levels in
order. -/
def parseLevelsFrom (args : List ℚ) (height baseRadius topRadius : ℚ) :
    ℕ → ℕ → Except String (List Level)
  | _, 0 => .ok []
  | i, n + 1 =>
    let lv := levelAt args height baseRadius topRadius i
    if lv.height ≤ 0 ∨ lv.baseRadius ≤ 0 ∨ lv.topRadius ≤ 0 then
      .error "Height and radius for levels must be positive values"
    else
      (parseLevelsFrom args height baseRadius topRadius (i + 1) n).map
        fun rest => lv :: rest

/-- The configuration returned by `getInputs` on success. -/
structure Config where
  numSides : ℚ
  height : ℚ
  baseRadius : ℚ
  topRadius : ℚ
  numLevels : ℚ
  levels : List Level
deriving DecidableEq, Repr

/-- `getInputs()` of the multi-level script.  `process.exit(1)` after a
`console.error` is modelled as `Except.error` with the printed message.
`parseInt` produces an integer, so the JavaScript loop
`for (i = 0; i < numLevels; i++)` runs `numLevels` times; on those integer
values `numLevels.ceil.toNat` is exactly that count. -/
def getInputs (args : List ℚ) : Except String Config :=
  let numSides := argNumSides args
  let height := argHeight args
  let baseRadius := argBaseRadius args
  let topRadius := argTopRadius args
  let numLevels := argNumLevels args
  if numSides < 3 ∨ 36 < numSides then
    .error "Invalid number of sides"
  else if height ≤ 0 ∨ baseRadius ≤ 0 ∨ topRadius ≤ 0 then
    .error "Height and radius must be positive values"
  else
    let base : Level := ⟨height, baseRadius, topRadius⟩
    if 0 < numLevels then
      if (args.length : ℚ) > 5 + numLevels * 3 then
        .error "Too many arguments for the specified number of levels"
      else
        match parseLevelsFrom args height baseRadius topRadius 0 numLevels.ceil.toNat with
        | .error e => .error e
        | .ok extra =>
          .ok ⟨numSides, height, baseRadius, topRadius, numLevels, base :: extra⟩
    else
      .ok ⟨numSides, height, baseRadius, topRadius, numLevels, [base]⟩

/-- The complete mesh data produced by one run of `main()`. -/
structure MeshData where
  verts : List V3
  norms : List V3
  facesBase : List (ℕ × ℕ × ℕ)
  facesTop : List (ℕ × ℕ × ℕ)
  facesSides : List (ℕ × ℕ × ℕ)

/-- `main()` of the multi-level script, up to serialization: parse and
validate the inputs, then (only on success) run the ring / vertex / face /
normal pipeline.  Validation failure aborts before any mesh construction. -/
noncomputable def mainRun (args : List ℚ) : Except String MeshData :=
  match getInputs args with
  | .error e => .error e
  | .ok cfg =>
    let n := cfg.numSides.ceil.toNat
    let rings := buildRings cfg.levels
    let verts := verticesFromRings n rings
    let fcs := facesFn n rings
    let nrm := normalsFn n verts rings
    .ok ⟨verts, nrm.1, fcs.1, fcs.2.1, fcs.2.2⟩

/-! ## List helper lemmas: flatMap of constant-length chunks -/

theorem flatMap_length_const {α β : Type} (f : α → List β) (N : ℕ)
    (hf : ∀ a, (f a).length = N) (l : List α) :
    (l.flatMap f).length = l.length * N := by
  induction l with
  | nil => simp
  | cons a t ih =>
    rw [List.flatMap_cons, List.length_append, hf, ih, List.length_cons,
      Nat.succ_mul, Nat.add_comm]

theorem flatMap_getElem_chunk {α β : Type} (f : α → List β) (N : ℕ)
    (hf : ∀ a, (f a).length = N) :
    ∀ (l : List α) (k i : ℕ), ∀ hk : k < l.length, i < N →
      (l.flatMap f)[k * N + i]? = (f l[k])[i]? := by
  intro l
  induction l with
  | nil => intro k i hk; simp at hk
  | cons a t ih =>
    intro k i hk hi
    cases k with
    | zero =>
      rw [List.flatMap_cons]
      simp only [Nat.zero_mul, Nat.zero_add]
      rw [List.getElem?_append_left (by rw [hf]; exact hi)]
      simp
    | succ k' =>
      rw [List.flatMap_cons]
      have harith : (k' + 1) * N + i = (f a).length + (k' * N + i) := by
        rw [hf]; ring
      rw [harith, List.getElem?_append_right (by omega)]
      simp only [Nat.add_sub_cancel_left]
      have := ih k' i (by simpa using hk) hi
      simpa using this

/-! ## buildRings helper lemmas -/

/-- The duplicate-detection predicate on rings. -/
def distinctRing (a b : Ring) : Prop := ¬(a.y = b.y ∧ a.r = b.r)

theorem isUniqueRing_eq_true (rings : List Ring) (y r : ℚ) :
    isUniqueRing rings y r = true ↔ ∀ t ∈ rings, ¬(t.y = y ∧ t.r = r) := by
  simp only [isUniqueRing, List.all_eq_true, Bool.not_eq_true',
    Bool.and_eq_false_iff, beq_eq_false_iff_ne, ne_eq, not_and_or]

theorem any_dup_eq_false (rings : List Ring) (y r : ℚ) :
    (rings.any fun t => t.y == y && t.r == r) = false ↔
      ∀ t ∈ rings, ¬(t.y = y ∧ t.r = r) := by
  simp [List.any_eq_true]

theorem append_ring_pairwise (rings : List Ring) (a : Ring)
    (hp : rings.Pairwise distinctRing)
    (h : ∀ t ∈ rings, ¬(t.y = a.y ∧ t.r = a.r)) :
    (rings ++ [a]).Pairwise distinctRing := by
  rw [List.pairwise_append]
  refine ⟨hp, List.pairwise_singleton _ _, ?_⟩
  intro x hx b hb
  rw [List.mem_singleton] at hb
  subst hb
  exact h x hx

theorem append_ring_chain (rings : List Ring) (a : Ring)
    (hc : rings.Chain' fun s t => s.y ≤ t.y)
    (h : ∀ t ∈ rings, t.y ≤ a.y) :
    (rings ++ [a]).Chain' fun s t => s.y ≤ t.y := by
  rw [List.chain'_append]
  refine ⟨hc, List.chain'_singleton _, ?_⟩
  intro x hx b hb
  simp only [List.head?_cons, Option.mem_def, Option.some.injEq] at hb
  subst hb
  exact h x (List.mem_of_mem_getLast? hx)

theorem ring_match_eq_false (a : Ring) (y r : ℚ) (h : a.y ≠ y) :
    (a.y == y && a.r == r) = false := by
  rw [show (a.y == y) = false from beq_eq_false_iff_ne.mpr h, Bool.false_and]

theorem buildRingsAux_invariant :
    ∀ (ls : List Level), (∀ l ∈ ls, 0 < l.height) →
    ∀ (y : ℚ) (rings : List Ring),
      rings.Pairwise distinctRing →
      (rings.Chain' fun s t => s.y ≤ t.y) →
      (∀ t ∈ rings, t.y ≤ y) →
      (buildRingsAux ls y rings).Pairwise distinctRing ∧
        ((buildRingsAux ls y rings).Chain' fun s t => s.y ≤ t.y) := by
  intro ls
  induction ls with
  | nil => intro _ y rings hp hc _; exact ⟨hp, hc⟩
  | cons l ls ih =>
    intro hh y rings hp hc hb
    have hl : 0 < l.height := hh l (List.mem_cons_self l ls)
    have hh' : ∀ l' ∈ ls, 0 < l'.height := fun l' h' => hh l' (List.mem_cons_of_mem l h')
    have hyy' : y ≤ y + l.height := by linarith
    simp only [buildRingsAux]
    split_ifs with hif1 hif2 hif2
    · -- lower pushed, upper skipped
      have hg := (isUniqueRing_eq_true rings y l.baseRadius).mp hif1
      refine ih hh' (y + l.height) _
        (append_ring_pairwise rings ⟨y, l.baseRadius⟩ hp hg)
        (append_ring_chain rings ⟨y, l.baseRadius⟩ hc hb) ?_
      intro t ht
      rcases List.mem_append.mp ht with h | h
      · exact le_trans (hb t h) hyy'
      · rw [List.mem_singleton] at h; subst h; exact hyy'
    · -- lower pushed, upper pushed
      have hg := (isUniqueRing_eq_true rings y l.baseRadius).mp hif1
      have hg2 := (any_dup_eq_false _ (y + l.height) l.topRadius).mp
        (eq_false_of_ne_true hif2)
      have hb1 : ∀ t ∈ rings ++ [(⟨y, l.baseRadius⟩ : Ring)],
          t.y ≤ (⟨y + l.height, l.topRadius⟩ : Ring).y := by
        intro t ht
        rcases List.mem_append.mp ht with h | h
        · exact le_trans (hb t h) hyy'
        · rw [List.mem_singleton] at h; subst h; exact hyy'
      rw [show rings ++ [(⟨y, l.baseRadius⟩ : Ring)] ++
            [(⟨y + l.height, l.topRadius⟩ : Ring)] =
          (rings ++ [(⟨y, l.baseRadius⟩ : Ring)]) ++
            [(⟨y + l.height, l.topRadius⟩ : Ring)] from rfl]
      refine ih hh' (y + l.height) _
        (append_ring_pairwise _ ⟨y + l.height, l.topRadius⟩
          (append_ring_pairwise rings ⟨y, l.baseRadius⟩ hp hg) hg2)
        (append_ring_chain _ ⟨y + l.height, l.topRadius⟩
          (append_ring_chain rings ⟨y, l.baseRadius⟩ hc hb) hb1) ?_
      intro t ht
      rcases List.mem_append.mp ht with h | h
      · exact hb1 t h
      · rw [List.mem_singleton] at h; subst h; exact le_refl _
    · -- lower skipped, upper skipped
      refine ih hh' (y + l.height) _ hp hc ?_
      exact fun t ht => le_trans (hb t ht) hyy'
    · -- lower skipped, upper pushed
      have hg2 := (any_dup_eq_false _ (y + l.height) l.topRadius).mp
        (eq_false_of_ne_true hif2)
      refine ih hh' (y + l.height) _
        (append_ring_pairwise rings ⟨y + l.height, l.topRadius⟩ hp hg2)
        (append_ring_chain rings ⟨y + l.height, l.topRadius⟩ hc
          fun t ht => le_trans (hb t ht) hyy') ?_
      intro t ht
      rcases List.mem_append.mp ht with h | h
      · exact le_trans (hb t h) hyy'
      · rw [List.mem_singleton] at h; subst h; exact le_refl _

theorem buildRings_pairwise (levels : List Level)
    (hh : ∀ l ∈ levels, 0 < l.height) :
    (buildRings levels).Pairwise distinctRing :=
  (buildRingsAux_invariant levels hh 0 [] (by simp) (by simp) (by simp)).1

theorem buildRings_chain (levels : List Level)
    (hh : ∀ l ∈ levels, 0 < l.height) :
    (buildRings levels).Chain' fun s t => s.y ≤ t.y :=
  (buildRingsAux_invariant levels hh 0 [] (by simp) (by simp) (by simp)).2

theorem buildRingsAux_radius (P : ℚ → Prop) :
    ∀ (ls : List Level) (y : ℚ) (rings : List Ring),
      (∀ t ∈ rings, P t.r) →
      (∀ l ∈ ls, P l.baseRadius ∧ P l.topRadius) →
      ∀ t ∈ buildRingsAux ls y rings, P t.r := by
  intro ls
  induction ls with
  | nil => intro y rings hr _ t ht; exact hr t ht
  | cons l ls ih =>
    intro y rings hr hP t ht
    have hPl := hP l (List.mem_cons_self l ls)
    have hP' : ∀ l' ∈ ls, P l'.baseRadius ∧ P l'.topRadius :=
      fun l' h' => hP l' (List.mem_cons_of_mem l h')
    simp only [buildRingsAux] at ht
    revert ht
    split_ifs with hif1 hif2 hif2 <;> intro ht <;>
      refine ih (y + l.height) _ ?_ hP' t ht <;> intro s hs
    · rcases List.mem_append.mp hs with h | h
      · exact hr s h
      · rw [List.mem_singleton] at h; subst h; exact hPl.1
    · rcases List.mem_append.mp hs with h | h
      · rcases List.mem_append.mp h with h' | h'
        · exact hr s h'
        · rw [List.mem_singleton] at h'; subst h'; exact hPl.1
      · rw [List.mem_singleton] at h; subst h; exact hPl.2
    · exact hr s hs
    · rcases List.mem_append.mp hs with h | h
      · exact hr s h
      · rw [List.mem_singleton] at h; subst h; exact hPl.2

theorem buildRings_radius_pos (levels : List Level)
    (hr : ∀ l ∈ levels, 0 < l.baseRadius ∧ 0 < l.topRadius) :
    ∀ t ∈ buildRings levels, 0 < t.r :=
  buildRingsAux_radius (0 < ·) levels 0 [] (by simp) hr

theorem buildRingsAux_grows :
    ∀ (ls : List Level) (y : ℚ) (rings : List Ring),
      rings.length ≤ (buildRingsAux ls y rings).length := by
  intro ls
  induction ls with
  | nil => intro y rings; exact le_refl _
  | cons l ls ih =>
    intro y rings
    simp only [buildRingsAux]
    split_ifs with hif1 hif2 hif2
    · exact le_trans (by simp) (ih (y + l.height) _)
    · exact le_trans (by simp) (ih (y + l.height) _)
    · exact ih (y + l.height) _
    · exact le_trans (by simp) (ih (y + l.height) _)

theorem buildRings_length_pos (l : Level) (ls : List Level) :
    1 ≤ (buildRings (l :: ls)).length := by
  rw [buildRings]
  simp only [buildRingsAux]
  split_ifs with hif1 hif2 hif2
  · exact le_trans (by simp) (buildRingsAux_grows ls _ _)
  · exact le_trans (by simp) (buildRingsAux_grows ls _ _)
  · exact absurd (show isUniqueRing [] 0 l.baseRadius = true from rfl) hif1
  · exact absurd (show isUniqueRing [] 0 l.baseRadius = true from rfl) hif1

theorem buildRingsAux_step (l : Level) (ls : List Level) (y : ℚ) (rings : List Ring)
    (hlow : isUniqueRing rings y l.baseRadius = true)
    (hup : ((rings ++ [(⟨y, l.baseRadius⟩ : Ring)]).any fun t =>
      t.y == y + l.height && t.r == l.topRadius) = false) :
    buildRingsAux (l :: ls) y rings =
      buildRingsAux ls (y + l.height)
        (rings ++ [⟨y, l.baseRadius⟩, ⟨y + l.height, l.topRadius⟩]) := by
  simp only [buildRingsAux, hlow, if_true, hup, Bool.false_eq_true, if_false]
  rw [List.append_assoc]
  rfl

theorem buildRingsAux_step_dup (l : Level) (ls : List Level) (y : ℚ) (rings : List Ring)
    (hlow : isUniqueRing rings y l.baseRadius = false)
    (hup : (rings.any fun t => t.y == y + l.height && t.r == l.topRadius) = false) :
    buildRingsAux (l :: ls) y rings =
      buildRingsAux ls (y + l.height) (rings ++ [⟨y + l.height, l.topRadius⟩]) := by
  simp only [buildRingsAux, hlow, hup, Bool.false_eq_true, if_false]

theorem buildRings_single (l : Level) (h : 0 < l.height) :
    buildRings [l] = [⟨0, l.baseRadius⟩, ⟨l.height, l.topRadius⟩] := by
  rw [buildRings,
    buildRingsAux_step l [] 0 [] rfl
      (by
        simp only [List.nil_append, List.any_cons, List.any_nil, Bool.or_false]
        exact ring_match_eq_false ⟨0, l.baseRadius⟩ _ _
          (show (0 : ℚ) ≠ 0 + l.height from fun hc => by linarith))]
  simp [buildRingsAux]

theorem buildRings_pair (l1 l2 : Level) (h1 : 0 < l1.height) (h2 : 0 < l2.height)
    (ht : l1.topRadius = l2.baseRadius) :
    buildRings [l1, l2] =
      [⟨0, l1.baseRadius⟩, ⟨l1.height, l1.topRadius⟩,
       ⟨l1.height + l2.height, l2.topRadius⟩] := by
  rw [buildRings,
    buildRingsAux_step l1 [l2] 0 [] rfl
      (by
        simp only [List.nil_append, List.any_cons, List.any_nil, Bool.or_false]
        exact ring_match_eq_false ⟨0, l1.baseRadius⟩ _ _
          (show (0 : ℚ) ≠ 0 + l1.height from fun hc => by linarith))]
  simp only [List.nil_append, zero_add]
  rw [buildRingsAux_step_dup l2 []  l1.height
      [⟨0, l1.baseRadius⟩, ⟨l1.height, l1.topRadius⟩]
      (by
        simp only [isUniqueRing, List.all_cons, List.all_nil, Bool.and_true]
        rw [show ((⟨l1.height, l1.topRadius⟩ : Ring).y == l1.height) = true from
            beq_iff_eq.mpr rfl,
          show ((⟨l1.height, l1.topRadius⟩ : Ring).r == l2.baseRadius) = true from
            beq_iff_eq.mpr ht]
        simp)
      (by
        simp only [List.any_cons, List.any_nil, Bool.or_false]
        rw [ring_match_eq_false ⟨0, l1.baseRadius⟩ _ _
            (show (0 : ℚ) ≠ l1.height + l2.height from fun hc => by linarith),
          ring_match_eq_false ⟨l1.height, l1.topRadius⟩ _ _
            (show l1.height ≠ l1.height + l2.height from fun hc => by linarith)]
        simp)]
  simp [buildRingsAux]

/-! ## Vertex generator lemmas -/

theorem ringSamples_length (numSides : ℕ) (ring : Ring) :
    ((List.range numSides).map (ringVertex numSides ring)).length = numSides := by
  simp

theorem verticesFromRings_length (numSides : ℕ) (rings : List Ring) :
    (verticesFromRings numSides rings).length = 2 + rings.length * numSides := by
  simp only [verticesFromRings, List.length_cons]
  rw [flatMap_length_const _ numSides (ringSamples_length numSides)]
  omega

theorem verticesFromRings_getElem (numSides : ℕ) (rings : List Ring) (k i : ℕ)
    (hk : k < rings.length) (hi : i < numSides) :
    (verticesFromRings numSides rings)[2 + k * numSides + i]? =
      some (ringVertex numSides rings[k] i) := by
  simp only [verticesFromRings]
  rw [show 2 + k * numSides + i = (k * numSides + i) + 1 + 1 from by omega]
  rw [List.getElem?_cons_succ, List.getElem?_cons_succ]
  rw [flatMap_getElem_chunk _ numSides (ringSamples_length numSides) rings k i hk hi]
  simp [List.getElem?_range, hi]

/-- C1: for every non-empty list of levels whose heights and radii are all
positive, `buildRings` produces no two rings with the same
`(elevation, radius)` pair and its elevations are non-decreasing; two
stacked levels whose shared boundary has equal radii produce exactly 3
rings, and a single level produces exactly 2 rings. -/
theorem C1_ring_dedup_and_order :
    (∀ levels : List Level, levels ≠ [] →
      (∀ l ∈ levels, 0 < l.height ∧ 0 < l.baseRadius ∧ 0 < l.topRadius) →
      (buildRings levels).Pairwise distinctRing ∧
        ((buildRings levels).Chain' fun s t => s.y ≤ t.y)) ∧
    (∀ l1 l2 : Level,
      0 < l1.height → 0 < l1.baseRadius → 0 < l1.topRadius →
      0 < l2.height → 0 < l2.baseRadius → 0 < l2.topRadius →
      l1.topRadius = l2.baseRadius →
      (buildRings [l1, l2]).length = 3) ∧
    (∀ l : Level, 0 < l.height → 0 < l.baseRadius → 0 < l.topRadius →
      (buildRings [l]).length = 2) := by
  refine ⟨?_, ?_, ?_⟩
  · intro levels _ hpos
    exact ⟨buildRings_pairwise levels fun l hl => (hpos l hl).1,
      buildRings_chain levels fun l hl => (hpos l hl).1⟩
  · intro l1 l2 h1 _ _ h2 _ _ ht
    rw [buildRings_pair l1 l2 h1 h2 ht]
    rfl
  · intro l h _ _
    rw [buildRings_single l h]
    rfl

/-- Witness for C1 at concrete inputs. -/
theorem C1_ring_dedup_and_order_witness :
    ((buildRings [⟨1, 2, 1⟩]).Pairwise distinctRing ∧
      ((buildRings [⟨1, 2, 1⟩]).Chain' fun s t => s.y ≤ t.y)) ∧
    (buildRings [⟨1, 2, 1⟩, ⟨2, 1, 1⟩]).length = 3 ∧
    (buildRings [⟨1, 2, 1⟩]).length = 2 :=
  ⟨C1_ring_dedup_and_order.1 [⟨1, 2, 1⟩] (by decide) (by decide),
   C1_ring_dedup_and_order.2.1 ⟨1, 2, 1⟩ ⟨2, 1, 1⟩ (by decide) (by decide)
     (by decide) (by decide) (by decide) (by decide) (by decide),
   C1_ring_dedup_and_order.2.2 ⟨1, 2, 1⟩ (by decide) (by decide) (by decide)⟩

/-- C2: for every ring sequence and angular resolution `3 ≤ N ≤ 36`, the
vertex generator produces exactly `2 + R*N` vertices, vertex 0 is the
origin, vertex 1 is `(0, topElevation, 0)` for the last ring's elevation,
and position `2 + k*N + i` holds
`(cos(i*2π/N)*r_k, y_k, sin(i*2π/N)*r_k)`. -/
theorem C2_vertex_layout (numSides : ℕ) (rings : List Ring)
    (h3 : 3 ≤ numSides) (h36 : numSides ≤ 36) (hne : rings ≠ []) :
    (verticesFromRings numSides rings).length = 2 + rings.length * numSides ∧
    (verticesFromRings numSides rings)[0]? = some ⟨0, 0, 0⟩ ∧
    (verticesFromRings numSides rings)[1]? =
      some ⟨0, ((rings.getLast hne).y : ℝ), 0⟩ ∧
    ∀ k i, ∀ hk : k < rings.length, i < numSides →
      (verticesFromRings numSides rings)[2 + k * numSides + i]? =
        some ⟨Real.cos (sampleAngle numSides i) * (rings[k].r : ℝ),
              ((rings[k]).y : ℝ),
              Real.sin (sampleAngle numSides i) * (rings[k].r : ℝ)⟩ := by
  refine ⟨verticesFromRings_length numSides rings, rfl, ?_, ?_⟩
  · simp only [verticesFromRings, List.getElem?_cons_succ, List.getElem?_cons_zero,
      List.getLast?_eq_getLast rings hne, Option.map_some', Option.getD_some]
  · intro k i hk hi
    rw [verticesFromRings_getElem numSides rings k i hk hi]
    rfl

/-- Witness for C2 at a concrete input. -/
theorem C2_vertex_layout_witness :
    (verticesFromRings 3 [⟨0, 1⟩]).length = 2 + [(⟨0, 1⟩ : Ring)].length * 3 ∧
    (verticesFromRings 3 [⟨0, 1⟩])[0]? = some ⟨0, 0, 0⟩ :=
  ⟨(C2_vertex_layout 3 [⟨0, 1⟩] (by decide) (by decide) (by decide)).1,
   (C2_vertex_layout 3 [⟨0, 1⟩] (by decide) (by decide) (by decide)).2.1⟩

/-! ## Face generator lemmas -/

theorem map_range_getElem? {β : Type} (g : ℕ → β) (n i : ℕ) (hi : i < n) :
    ((List.range n).map g)[i]? = some (g i) := by
  simp [List.getElem?_range, hi]

theorem pair_flatMap_length {β : Type} (g h : ℕ → β) (n : ℕ) :
    ((List.range n).flatMap fun i => [g i, h i]).length = n * 2 := by
  rw [flatMap_length_const (fun i => [g i, h i]) 2 (fun c => rfl)]
  simp

theorem sideFaces_getElem (numSides : ℕ) (rings : List Ring) (j i b : ℕ)
    (hj : j < rings.length - 1) (hi : i < numSides) (hb : b < 2) :
    (facesFn numSides rings).2.2[2 * (j * numSides + i) + b]? =
      ([(3 + j * numSides + i, 3 + j * numSides + (i + 1) % numSides,
         3 + (j + 1) * numSides + (i + 1) % numSides),
        (3 + j * numSides + i, 3 + (j + 1) * numSides + (i + 1) % numSides,
         3 + (j + 1) * numSides + i)] : List (ℕ × ℕ × ℕ))[b]? := by
  simp only [facesFn]
  rw [show 2 * (j * numSides + i) + b = j * (numSides * 2) + (i * 2 + b) from by ring]
  rw [flatMap_getElem_chunk
    (fun j => (List.range numSides).flatMap fun i =>
      [(3 + j * numSides + i, 3 + j * numSides + (i + 1) % numSides,
        3 + (j + 1) * numSides + (i + 1) % numSides),
       (3 + j * numSides + i, 3 + (j + 1) * numSides + (i + 1) % numSides,
        3 + (j + 1) * numSides + i)])
    (numSides * 2) (fun a => pair_flatMap_length _ _ numSides)
    (List.range (rings.length - 1)) j (i * 2 + b) (by simpa using hj) (by omega)]
  rw [List.getElem_range]
  rw [flatMap_getElem_chunk
    (fun i => ([(3 + j * numSides + i, 3 + j * numSides + (i + 1) % numSides,
        3 + (j + 1) * numSides + (i + 1) % numSides),
       (3 + j * numSides + i, 3 + (j + 1) * numSides + (i + 1) % numSides,
        3 + (j + 1) * numSides + i)] : List (ℕ × ℕ × ℕ)))
    2 (fun c => rfl) (List.range numSides) i b (by simpa using hi) hb]
  rw [List.getElem_range]

theorem sideFaces_length (numSides : ℕ) (rings : List Ring) :
    (facesFn numSides rings).2.2.length = 2 * numSides * (rings.length - 1) := by
  simp only [facesFn]
  rw [flatMap_length_const
    (fun j => (List.range numSides).flatMap fun i =>
      [(3 + j * numSides + i, 3 + j * numSides + (i + 1) % numSides,
        3 + (j + 1) * numSides + (i + 1) % numSides),
       (3 + j * numSides + i, 3 + (j + 1) * numSides + (i + 1) % numSides,
        3 + (j + 1) * numSides + i)])
    (numSides * 2) (fun a => pair_flatMap_length _ _ numSides)]
  simp only [List.length_range]
  ring

/-- C3: for `3 ≤ N ≤ 36` and a ring sequence of length `R ≥ 2`, the face
generator emits `N` base-cap triangles `(centerBase, ring0[(i+1)%N],
ring0[i])`, `N` top-cap triangles `(centerTop, ringLast[i],
ringLast[(i+1)%N])`, and per adjacent ring pair `2N` lateral triangles
`(lowerCurrent, lowerNext, upperNext)` and
`(lowerCurrent, upperNext, upperCurrent)`, for `2N + 2N*(R-1)` faces in
total (1-based vertex indices, ring `j` sample `i` at `3 + j*N + i`). -/
theorem C3_face_triangulation (numSides : ℕ) (rings : List Ring)
    (h3 : 3 ≤ numSides) (h36 : numSides ≤ 36) (h2 : 2 ≤ rings.length) :
    (facesFn numSides rings).1.length = numSides ∧
    (facesFn numSides rings).2.1.length = numSides ∧
    (facesFn numSides rings).2.2.length = 2 * numSides * (rings.length - 1) ∧
    ((facesFn numSides rings).1.length + (facesFn numSides rings).2.1.length +
        (facesFn numSides rings).2.2.length =
      2 * numSides + 2 * numSides * (rings.length - 1)) ∧
    (∀ i, i < numSides →
      (facesFn numSides rings).1[i]? =
        some (1, 3 + (i + 1) % numSides, 3 + i)) ∧
    (∀ i, i < numSides →
      (facesFn numSides rings).2.1[i]? =
        some (2, 3 + (rings.length - 1) * numSides + i,
              3 + (rings.length - 1) * numSides + (i + 1) % numSides)) ∧
    (∀ j i, j < rings.length - 1 → i < numSides →
      (facesFn numSides rings).2.2[2 * (j * numSides + i)]? =
        some (3 + j * numSides + i, 3 + j * numSides + (i + 1) % numSides,
              3 + (j + 1) * numSides + (i + 1) % numSides) ∧
      (facesFn numSides rings).2.2[2 * (j * numSides + i) + 1]? =
        some (3 + j * numSides + i, 3 + (j + 1) * numSides + (i + 1) % numSides,
              3 + (j + 1) * numSides + i)) := by
  refine ⟨by simp [facesFn], by simp [facesFn], sideFaces_length numSides rings,
    ?_, ?_, ?_, ?_⟩
  · rw [sideFaces_length numSides rings,
      show (facesFn numSides rings).1.length = numSides from by simp [facesFn],
      show (facesFn numSides rings).2.1.length = numSides from by simp [facesFn]]
    ring
  · intro i hi
    simp only [facesFn]
    rw [map_range_getElem? _ numSides i hi]
    simp
  · intro i hi
    simp only [facesFn]
    rw [map_range_getElem? _ numSides i hi]
  · intro j i hj hi
    constructor
    · have := sideFaces_getElem numSides rings j i 0 hj hi (by omega)
      simpa using this
    · exact sideFaces_getElem numSides rings j i 1 hj hi (by omega)

/-- Witness for C3 at a concrete input. -/
theorem C3_face_triangulation_witness :
    (facesFn 3 [⟨0, 1⟩, ⟨1, 1⟩]).1.length = 3 ∧
    (facesFn 3 [⟨0, 1⟩, ⟨1, 1⟩]).2.2.length =
      2 * 3 * ([(⟨0, 1⟩ : Ring), ⟨1, 1⟩].length - 1) :=
  ⟨(C3_face_triangulation 3 [⟨0, 1⟩, ⟨1, 1⟩] (by decide) (by decide) (by decide)).1,
   (C3_face_triangulation 3 [⟨0, 1⟩, ⟨1, 1⟩] (by decide) (by decide)
     (by decide)).2.2.1⟩

/-! ## Normal generator lemmas -/

theorem lateralNormals_length (numSides : ℕ) (verts : List V3) (rings : List Ring) :
    (normalsFn numSides verts rings).1.length =
      2 + (rings.length - 1) * numSides := by
  simp only [normalsFn, List.length_cons]
  rw [flatMap_length_const
    (fun j => (List.range numSides).map fun i =>
      V3.normalize (lateralCross numSides verts j i))
    numSides (fun a => by simp)]
  rw [List.length_range]
  omega

theorem normalsFn_lateral_getElem (numSides : ℕ) (verts : List V3)
    (rings : List Ring) (j i : ℕ) (hj : j < rings.length - 1) (hi : i < numSides) :
    (normalsFn numSides verts rings).1[2 + (j * numSides + i)]? =
      some (V3.normalize (lateralCross numSides verts j i)) := by
  simp only [normalsFn]
  rw [show 2 + (j * numSides + i) = (j * numSides + i) + 1 + 1 from by omega]
  rw [List.getElem?_cons_succ, List.getElem?_cons_succ]
  rw [flatMap_getElem_chunk
    (fun j => (List.range numSides).map fun i =>
      V3.normalize (lateralCross numSides verts j i))
    numSides (fun a => by simp)
    (List.range (rings.length - 1)) j i (by simpa using hj) hi]
  rw [List.getElem_range]
  exact map_range_getElem? _ numSides i hi

theorem sideNormalIdx_getElem (numSides : ℕ) (verts : List V3)
    (rings : List Ring) (m : ℕ) (hN : 0 < numSides)
    (hm : m < (rings.length - 1) * numSides) :
    (normalsFn numSides verts rings).2.2.2[m]? = some (2 + m + 1) := by
  simp only [normalsFn]
  have hk : m / numSides < rings.length - 1 :=
    (Nat.div_lt_iff_lt_mul hN).mpr hm
  have hi : m % numSides < numSides := Nat.mod_lt _ hN
  have hsplit : m / numSides * numSides + m % numSides = m := by
    rw [Nat.mul_comm]
    exact Nat.div_add_mod m numSides
  rw [show m = m / numSides * numSides + m % numSides from hsplit.symm]
  rw [flatMap_getElem_chunk
    (fun j => (List.range numSides).map fun i => 2 + (j * numSides + i) + 1)
    numSides (fun a => by simp)
    (List.range (rings.length - 1)) (m / numSides) (m % numSides)
    (by simpa using hk) hi]
  rw [List.getElem_range]
  rw [map_range_getElem? _ numSides _ hi]

/-- C4: for `3 ≤ N ≤ 36` and `R ≥ 2` rings, the normal generator produces
exactly `2 + (R-1)*N` normals, the first being the constant `(0,-1,0)` and
the second the constant `(0,1,0)` for any vertex data; entry `2 + j*N + i`
is the normalized cross product of the first triangle of lateral quad
`(j, i)`, and both triangles `2m` and `2m+1` of quad `m` are paired with
the same 1-based normal index `3 + m` by the serializer. -/
theorem C4_normal_layout (numSides : ℕ) (verts : List V3) (rings : List Ring)
    (h3 : 3 ≤ numSides) (h36 : numSides ≤ 36) (h2 : 2 ≤ rings.length) :
    (normalsFn numSides verts rings).1.length =
      2 + (rings.length - 1) * numSides ∧
    (normalsFn numSides verts rings).1[0]? = some ⟨0, -1, 0⟩ ∧
    (normalsFn numSides verts rings).1[1]? = some ⟨0, 1, 0⟩ ∧
    (∀ j i, j < rings.length - 1 → i < numSides →
      (normalsFn numSides verts rings).1[2 + (j * numSides + i)]? =
        some (V3.normalize (lateralCross numSides verts j i))) ∧
    (∀ m, m < (rings.length - 1) * numSides →
      sideFaceNormalIndex (normalsFn numSides verts rings).2.2.2 (2 * m) =
          some (2 + m + 1) ∧
        sideFaceNormalIndex (normalsFn numSides verts rings).2.2.2 (2 * m + 1) =
          some (2 + m + 1)) := by
  refine ⟨lateralNormals_length numSides verts rings, by simp [normalsFn],
    by simp [normalsFn], ?_, ?_⟩
  · intro j i hj hi
    exact normalsFn_lateral_getElem numSides verts rings j i hj hi
  · intro m hm
    have hN : 0 < numSides := by omega
    constructor
    · rw [sideFaceNormalIndex, show 2 * m / 2 = m from by omega]
      exact sideNormalIdx_getElem numSides verts rings m hN hm
    · rw [sideFaceNormalIndex, show (2 * m + 1) / 2 = m from by omega]
      exact sideNormalIdx_getElem numSides verts rings m hN hm

/-- Witness for C4 at a concrete input. -/
theorem C4_normal_layout_witness :
    (normalsFn 3 [] [⟨0, 1⟩, ⟨1, 1⟩]).1.length =
      2 + ([(⟨0, 1⟩ : Ring), ⟨1, 1⟩].length - 1) * 3 ∧
    (normalsFn 3 [] [⟨0, 1⟩, ⟨1, 1⟩]).1[0]? = some ⟨0, -1, 0⟩ :=
  ⟨(C4_normal_layout 3 [] [⟨0, 1⟩, ⟨1, 1⟩] (by decide) (by decide) (by decide)).1,
   (C4_normal_layout 3 [] [⟨0, 1⟩, ⟨1, 1⟩] (by decide) (by decide)
     (by decide)).2.1⟩

/-! ## Index bound lemmas -/

theorem sample_index_bound (numSides R j i : ℕ) (hj : j < R) (hi : i < numSides) :
    1 ≤ 3 + j * numSides + i ∧ 3 + j * numSides + i ≤ 2 + R * numSides := by
  refine ⟨by omega, ?_⟩
  have hmul : (j + 1) * numSides ≤ R * numSides :=
    Nat.mul_le_mul_right _ (by omega : j + 1 ≤ R)
  have hexp : (j + 1) * numSides = j * numSides + numSides := by ring
  linarith

/-- C5: on every valid input (`3 ≤ N ≤ 36`, non-empty levels, positive
heights and radii), every vertex index of every emitted face lies within
`[1, 2 + R*N]`, the actual vertex count; the base and top cap normal
indices are 1 and 2, the lateral triangle `t` is paired with normal index
`3 + t/2`, and all normal indices lie within `[1, 2 + (R-1)*N]`, the
actual normal count; no lookup misses. -/
theorem C5_face_and_normal_indices_in_range (numSides : ℕ) (levels : List Level)
    (h3 : 3 ≤ numSides) (h36 : numSides ≤ 36) (hne : levels ≠ [])
    (hpos : ∀ l ∈ levels, 0 < l.height ∧ 0 < l.baseRadius ∧ 0 < l.topRadius) :
    (verticesFromRings numSides (buildRings levels)).length =
      2 + (buildRings levels).length * numSides ∧
    (normalsFn numSides (verticesFromRings numSides (buildRings levels))
        (buildRings levels)).1.length =
      2 + ((buildRings levels).length - 1) * numSides ∧
    (∀ f ∈ (facesFn numSides (buildRings levels)).1 ++
        (facesFn numSides (buildRings levels)).2.1 ++
        (facesFn numSides (buildRings levels)).2.2,
      (1 ≤ f.1 ∧ f.1 ≤ 2 + (buildRings levels).length * numSides) ∧
      (1 ≤ f.2.1 ∧ f.2.1 ≤ 2 + (buildRings levels).length * numSides) ∧
      (1 ≤ f.2.2 ∧ f.2.2 ≤ 2 + (buildRings levels).length * numSides)) ∧
    ((normalsFn numSides (verticesFromRings numSides (buildRings levels))
        (buildRings levels)).2.1 = 1 ∧
      1 ≤ 2 + ((buildRings levels).length - 1) * numSides) ∧
    ((normalsFn numSides (verticesFromRings numSides (buildRings levels))
        (buildRings levels)).2.2.1 = 2 ∧
      2 ≤ 2 + ((buildRings levels).length - 1) * numSides) ∧
    (∀ t, t < (facesFn numSides (buildRings levels)).2.2.length →
      sideFaceNormalIndex (normalsFn numSides
          (verticesFromRings numSides (buildRings levels))
          (buildRings levels)).2.2.2 t = some (2 + t / 2 + 1) ∧
        1 ≤ 2 + t / 2 + 1 ∧
        2 + t / 2 + 1 ≤ 2 + ((buildRings levels).length - 1) * numSides) := by
  obtain ⟨l0, ls0, rfl⟩ := List.exists_cons_of_ne_nil hne
  have hR : 1 ≤ (buildRings (l0 :: ls0)).length := buildRings_length_pos l0 ls0
  have hN : 0 < numSides := by omega
  refine ⟨verticesFromRings_length numSides _, lateralNormals_length numSides _ _,
    ?_, ⟨rfl, by omega⟩, ⟨rfl, by omega⟩, ?_⟩
  · intro f hf
    rcases List.mem_append.mp hf with hf' | hfS
    · rcases List.mem_append.mp hf' with hfB | hfT
      · simp only [facesFn] at hfB
        rcases List.mem_map.mp hfB with ⟨i, hiR, rfl⟩
        have hi := List.mem_range.mp hiR
        have hmod : (i + 1) % numSides < numSides := Nat.mod_lt _ hN
        exact ⟨⟨by omega, by
            have := Nat.zero_le ((buildRings (l0 :: ls0)).length * numSides)
            linarith⟩,
          sample_index_bound numSides _ 0 _ (by omega) hmod,
          sample_index_bound numSides _ 0 _ (by omega) hi⟩
      · simp only [facesFn] at hfT
        rcases List.mem_map.mp hfT with ⟨i, hiR, rfl⟩
        have hi := List.mem_range.mp hiR
        have hmod : (i + 1) % numSides < numSides := Nat.mod_lt _ hN
        have hjlt : (buildRings (l0 :: ls0)).length - 1 <
            (buildRings (l0 :: ls0)).length := by omega
        exact ⟨⟨by omega, by
            have := Nat.zero_le ((buildRings (l0 :: ls0)).length * numSides)
            linarith⟩,
          sample_index_bound numSides _ _ _ hjlt hi,
          sample_index_bound numSides _ _ _ hjlt hmod⟩
    · simp only [facesFn] at hfS
      rcases List.mem_flatMap.mp hfS with ⟨j, hjR, hfin⟩
      have hj := List.mem_range.mp hjR
      rcases List.mem_flatMap.mp hfin with ⟨i, hiR, hfpair⟩
      have hi := List.mem_range.mp hiR
      have hmod : (i + 1) % numSides < numSides := Nat.mod_lt _ hN
      have hjlt : j < (buildRings (l0 :: ls0)).length := by omega
      have hjlt1 : j + 1 < (buildRings (l0 :: ls0)).length := by omega
      rcases List.mem_cons.mp hfpair with rfl | hfpair'
      · exact ⟨sample_index_bound numSides _ j i hjlt hi,
          sample_index_bound numSides _ j _ hjlt hmod,
          sample_index_bound numSides _ (j + 1) _ hjlt1 hmod⟩
      · rw [List.mem_singleton] at hfpair'
        subst hfpair'
        exact ⟨sample_index_bound numSides _ j i hjlt hi,
          sample_index_bound numSides _ (j + 1) _ hjlt1 hmod,
          sample_index_bound numSides _ (j + 1) i hjlt1 hi⟩
  · intro t ht
    rw [sideFaces_length numSides _] at ht
    have hhalf : t / 2 < ((buildRings (l0 :: ls0)).length - 1) * numSides := by
      rw [Nat.div_lt_iff_lt_mul (by omega : 0 < 2)]
      calc t < 2 * numSides * ((buildRings (l0 :: ls0)).length - 1) := ht
        _ = ((buildRings (l0 :: ls0)).length - 1) * numSides * 2 := by ring
    refine ⟨?_, by omega, by linarith⟩
    rw [sideFaceNormalIndex]
    exact sideNormalIdx_getElem numSides _ _ (t / 2) hN hhalf

/-- Witness for C5 at a concrete input. -/
theorem C5_face_and_normal_indices_in_range_witness :
    (verticesFromRings 3 (buildRings [⟨1, 1, 1⟩])).length =
      2 + (buildRings [⟨1, 1, 1⟩]).length * 3 :=
  (C5_face_and_normal_indices_in_range 3 [⟨1, 1, 1⟩] (by decide) (by decide)
    (by decide) (by decide)).1

/-! ## Trigonometric lemmas for the lateral normal geometry -/

theorem next_angle_sin (numSides i : ℕ) (h3 : 3 ≤ numSides) (hi : i < numSides) :
    Real.cos (sampleAngle numSides i) *
        Real.sin (sampleAngle numSides ((i + 1) % numSides)) -
      Real.sin (sampleAngle numSides i) *
        Real.cos (sampleAngle numSides ((i + 1) % numSides)) =
    Real.sin (2 * Real.pi / numSides) := by
  rw [show
      Real.cos (sampleAngle numSides i) *
          Real.sin (sampleAngle numSides ((i + 1) % numSides)) -
        Real.sin (sampleAngle numSides i) *
          Real.cos (sampleAngle numSides ((i + 1) % numSides)) =
      Real.sin (sampleAngle numSides ((i + 1) % numSides)) *
          Real.cos (sampleAngle numSides i) -
        Real.cos (sampleAngle numSides ((i + 1) % numSides)) *
          Real.sin (sampleAngle numSides i) from by ring,
    ← Real.sin_sub]
  by_cases hcase : i + 1 < numSides
  · rw [Nat.mod_eq_of_lt hcase]
    congr 1
    unfold sampleAngle
    push_cast
    ring
  · have hlast : i + 1 = numSides := by omega
    rw [hlast, Nat.mod_self]
    have hcast : ((numSides : ℝ)) ≠ 0 := by
      have : (0 : ℝ) < numSides := by exact_mod_cast Nat.lt_of_lt_of_le (by omega) h3
      linarith
    have hdiff : sampleAngle numSides 0 - sampleAngle numSides i =
        2 * Real.pi / numSides - 2 * Real.pi := by
      unfold sampleAngle
      have hiN : (i : ℝ) = (numSides : ℝ) - 1 := by
        have hcast1 : (i : ℝ) + 1 = (numSides : ℝ) := by exact_mod_cast hlast
        linarith
      rw [hiN]
      field_simp
      ring
    rw [hdiff, Real.sin_periodic.sub_eq]

theorem sin_sample_step_pos (numSides : ℕ) (h3 : 3 ≤ numSides) :
    0 < Real.sin (2 * Real.pi / numSides) := by
  have hN : (0 : ℝ) < numSides := by
    exact_mod_cast Nat.lt_of_lt_of_le (by omega) h3
  have hN3 : (3 : ℝ) ≤ numSides := by exact_mod_cast h3
  apply Real.sin_pos_of_pos_of_lt_pi
  · apply div_pos
    · have := Real.pi_pos
      linarith
    · exact hN
  · rw [div_lt_iff₀ hN]
    nlinarith [Real.pi_pos]

theorem lateralCross_closed (numSides : ℕ) (rings : List Ring) (j i : ℕ)
    (hj : j + 1 < rings.length) (hi : i < numSides) (hN : 0 < numSides) :
    lateralCross numSides (verticesFromRings numSides rings) j i =
      ⟨(rings[j].r : ℝ) * ((rings[j + 1].y : ℝ) - (rings[j].y : ℝ)) *
          (Real.sin (sampleAngle numSides i) -
           Real.sin (sampleAngle numSides ((i + 1) % numSides))),
       (rings[j].r : ℝ) * ((rings[j + 1].r : ℝ) - (rings[j].r : ℝ)) *
          (Real.cos (sampleAngle numSides i) *
             Real.sin (sampleAngle numSides ((i + 1) % numSides)) -
           Real.sin (sampleAngle numSides i) *
             Real.cos (sampleAngle numSides ((i + 1) % numSides))),
       (rings[j].r : ℝ) * ((rings[j + 1].y : ℝ) - (rings[j].y : ℝ)) *
          (Real.cos (sampleAngle numSides ((i + 1) % numSides)) -
           Real.cos (sampleAngle numSides i))⟩ := by
  have hmod : (i + 1) % numSides < numSides := Nat.mod_lt _ hN
  simp only [lateralCross]
  rw [show 3 + j * numSides + i - 1 = 2 + j * numSides + i from by omega,
    show 3 + j * numSides + (i + 1) % numSides - 1 =
      2 + j * numSides + (i + 1) % numSides from by omega,
    show 3 + (j + 1) * numSides + (i + 1) % numSides - 1 =
      2 + (j + 1) * numSides + (i + 1) % numSides from by omega]
  rw [verticesFromRings_getElem numSides rings j i (by omega) hi,
    verticesFromRings_getElem numSides rings j ((i + 1) % numSides) (by omega) hmod,
    verticesFromRings_getElem numSides rings (j + 1) ((i + 1) % numSides) hj hmod]
  simp only [Option.getD_some, ringVertex, V3.subtract, V3.cross]
  refine V3.ext ?_ ?_ ?_ <;> ring

theorem normalize_ne_zero (v : V3) (h : v ≠ ⟨0, 0, 0⟩) :
    V3.normalize v ≠ ⟨0, 0, 0⟩ := by
  have hcomp : v.x ≠ 0 ∨ v.y ≠ 0 ∨ v.z ≠ 0 := by
    by_contra hcon
    push_neg at hcon
    exact h (V3.ext hcon.1 hcon.2.1 hcon.2.2)
  have hsq : 0 < v.x ^ 2 + v.y ^ 2 + v.z ^ 2 := by
    rcases hcomp with hx | hy | hz
    · have h1 : 0 < v.x ^ 2 := pow_two_pos_of_ne_zero hx
      nlinarith [sq_nonneg v.y, sq_nonneg v.z]
    · have h1 : 0 < v.y ^ 2 := pow_two_pos_of_ne_zero hy
      nlinarith [sq_nonneg v.x, sq_nonneg v.z]
    · have h1 : 0 < v.z ^ 2 := pow_two_pos_of_ne_zero hz
      nlinarith [sq_nonneg v.x, sq_nonneg v.y]
  have hn : 0 < v.norm := Real.sqrt_pos.mpr hsq
  intro heq
  have hx0 : v.x / v.norm = 0 := congrArg V3.x heq
  have hy0 : v.y / v.norm = 0 := congrArg V3.y heq
  have hz0 : v.z / v.norm = 0 := congrArg V3.z heq
  rcases hcomp with hx | hy | hz
  · exact hx ((div_eq_zero_iff.mp hx0).resolve_right (by linarith))
  · exact hy ((div_eq_zero_iff.mp hy0).resolve_right (by linarith))
  · exact hz ((div_eq_zero_iff.mp hz0).resolve_right (by linarith))

theorem lateralCross_ne_zero (numSides : ℕ) (rings : List Ring) (j i : ℕ)
    (h3 : 3 ≤ numSides) (hj : j + 1 < rings.length) (hi : i < numSides)
    (hpair : ¬(rings[j].y = rings[j + 1].y ∧ rings[j].r = rings[j + 1].r))
    (hchain : rings[j].y ≤ rings[j + 1].y)
    (hrpos : 0 < rings[j].r) :
    lateralCross numSides (verticesFromRings numSides rings) j i ≠ ⟨0, 0, 0⟩ := by
  rw [lateralCross_closed numSides rings j i hj hi (by omega)]
  have hsin := next_angle_sin numSides i h3 hi
  have hpos := sin_sample_step_pos numSides h3
  have hrR : (0 : ℝ) < (rings[j].r : ℝ) := by exact_mod_cast hrpos
  intro heq
  have hx : (rings[j].r : ℝ) * ((rings[j + 1].y : ℝ) - (rings[j].y : ℝ)) *
      (Real.sin (sampleAngle numSides i) -
       Real.sin (sampleAngle numSides ((i + 1) % numSides))) = 0 :=
    congrArg V3.x heq
  have hyc : (rings[j].r : ℝ) * ((rings[j + 1].r : ℝ) - (rings[j].r : ℝ)) *
      (Real.cos (sampleAngle numSides i) *
         Real.sin (sampleAngle numSides ((i + 1) % numSides)) -
       Real.sin (sampleAngle numSides i) *
         Real.cos (sampleAngle numSides ((i + 1) % numSides))) = 0 :=
    congrArg V3.y heq
  have hz : (rings[j].r : ℝ) * ((rings[j + 1].y : ℝ) - (rings[j].y : ℝ)) *
      (Real.cos (sampleAngle numSides ((i + 1) % numSides)) -
       Real.cos (sampleAngle numSides i)) = 0 :=
    congrArg V3.z heq
  rcases eq_or_lt_of_le hchain with heqy | hlty
  · -- equal elevations: consecutive radii differ, so the y-component is nonzero
    have hrne : rings[j].r ≠ rings[j + 1].r := fun hc => hpair ⟨heqy, hc⟩
    have hrneR : (rings[j + 1].r : ℝ) - (rings[j].r : ℝ) ≠ 0 := by
      intro hc
      apply hrne
      have : (rings[j].r : ℝ) = (rings[j + 1].r : ℝ) := by linarith
      exact_mod_cast this
    rw [hsin] at hyc
    rcases mul_eq_zero.mp hyc with hyc' | hyc''
    · rcases mul_eq_zero.mp hyc' with h0 | h0
      · linarith
      · exact hrneR h0
    · linarith
  · -- strictly increasing elevation: x and z components force equal samples
    have hdy : (0 : ℝ) < (rings[j + 1].y : ℝ) - (rings[j].y : ℝ) := by
      have : (rings[j].y : ℝ) < (rings[j + 1].y : ℝ) := by exact_mod_cast hlty
      linarith
    have hs : Real.sin (sampleAngle numSides i) =
        Real.sin (sampleAngle numSides ((i + 1) % numSides)) := by
      rcases mul_eq_zero.mp hx with hx' | hx''
      · rcases mul_eq_zero.mp hx' with h0 | h0
        · linarith
        · linarith
      · linarith
    have hc : Real.cos (sampleAngle numSides ((i + 1) % numSides)) =
        Real.cos (sampleAngle numSides i) := by
      rcases mul_eq_zero.mp hz with hz' | hz''
      · rcases mul_eq_zero.mp hz' with h0 | h0
        · linarith
        · linarith
      · linarith
    rw [← hs, hc] at hsin
    have : Real.sin (2 * Real.pi / numSides) = 0 := by
      rw [← hsin]
      ring
    linarith

/-- C6: on every valid input, the three vertices used for each lateral
normal are never collinear: the cross product computed by the normal
generator is nonzero, and its normalization is a well-defined nonzero
vector (ring de-duplication guarantees consecutive rings differ). -/
theorem C6_lateral_cross_nonzero (numSides : ℕ) (levels : List Level)
    (h3 : 3 ≤ numSides) (h36 : numSides ≤ 36) (hne : levels ≠ [])
    (hpos : ∀ l ∈ levels, 0 < l.height ∧ 0 < l.baseRadius ∧ 0 < l.topRadius) :
    ∀ j i, j + 1 < (buildRings levels).length → i < numSides →
      lateralCross numSides (verticesFromRings numSides (buildRings levels))
          j i ≠ ⟨0, 0, 0⟩ ∧
      V3.normalize (lateralCross numSides
          (verticesFromRings numSides (buildRings levels)) j i) ≠ ⟨0, 0, 0⟩ := by
  intro j i hj hi
  have hpw := buildRings_pairwise levels fun l hl => (hpos l hl).1
  have hch := buildRings_chain levels fun l hl => (hpos l hl).1
  have hpair : distinctRing (buildRings levels)[j] (buildRings levels)[j + 1] :=
    List.pairwise_iff_get.mp hpw ⟨j, by omega⟩ ⟨j + 1, hj⟩ (Nat.lt_succ_self j)
  have hchain : (buildRings levels)[j].y ≤ (buildRings levels)[j + 1].y :=
    List.chain'_iff_get.mp hch j (by omega)
  have hrpos : 0 < (buildRings levels)[j].r :=
    buildRings_radius_pos levels
      (fun l hl => ⟨(hpos l hl).2.1, (hpos l hl).2.2⟩) _
      (List.getElem_mem _)
  have hcross := lateralCross_ne_zero numSides (buildRings levels) j i h3 hj hi
    hpair hchain hrpos
  exact ⟨hcross, normalize_ne_zero _ hcross⟩

/-- Witness for C6 at a concrete input. -/
theorem C6_lateral_cross_nonzero_witness :
    lateralCross 4 (verticesFromRings 4 (buildRings [⟨1, 1, 1⟩])) 0 0 ≠
        ⟨0, 0, 0⟩ ∧
      V3.normalize (lateralCross 4
        (verticesFromRings 4 (buildRings [⟨1, 1, 1⟩])) 0 0) ≠ ⟨0, 0, 0⟩ :=
  C6_lateral_cross_nonzero 4 [⟨1, 1, 1⟩] (by decide) (by decide) (by decide)
    (by decide) 0 0
    (by rw [buildRings_single ⟨1, 1, 1⟩ (by decide)]; decide) (by decide)

/-! ## Orientation of the lateral normals -/

/-- The spec's outward radial direction at angular sample `i`: the unit
horizontal vector `(cos θ_i, 0, sin θ_i)`. -/
noncomputable def radialOutward (numSides i : ℕ) : V3 :=
  ⟨Real.cos (sampleAngle numSides i), 0, Real.sin (sampleAngle numSides i)⟩

theorem norm_pos_of_ne_zero (v : V3) (h : v ≠ ⟨0, 0, 0⟩) : 0 < v.norm := by
  have hcomp : v.x ≠ 0 ∨ v.y ≠ 0 ∨ v.z ≠ 0 := by
    by_contra hcon
    push_neg at hcon
    exact h (V3.ext hcon.1 hcon.2.1 hcon.2.2)
  have hsq : 0 < v.x ^ 2 + v.y ^ 2 + v.z ^ 2 := by
    rcases hcomp with hx | hy | hz
    · have h1 : 0 < v.x ^ 2 := pow_two_pos_of_ne_zero hx
      nlinarith [sq_nonneg v.y, sq_nonneg v.z]
    · have h1 : 0 < v.y ^ 2 := pow_two_pos_of_ne_zero hy
      nlinarith [sq_nonneg v.x, sq_nonneg v.z]
    · have h1 : 0 < v.z ^ 2 := pow_two_pos_of_ne_zero hz
      nlinarith [sq_nonneg v.x, sq_nonneg v.y]
  exact Real.sqrt_pos.mpr hsq

theorem dot_normalize (v w : V3) :
    V3.dot (V3.normalize v) w = V3.dot v w / v.norm := by
  simp only [V3.dot, V3.normalize]
  rw [div_mul_eq_mul_div, div_mul_eq_mul_div, div_mul_eq_mul_div,
    div_add_div_same, div_add_div_same]

/-- C7 (code behavior): for every `3 ≤ N ≤ 36` and every single
upward-tapering level with `baseRadius > topRadius > 0`, each lateral
normal computed by the generator satisfies
`normal · radialOutward < 0` — the normals point INWARD, which refutes
the claim's required `normal · radialOutward > 0`. -/
theorem C7_lateral_normals_point_inward (numSides : ℕ)
    (height baseRadius topRadius : ℚ)
    (h3 : 3 ≤ numSides) (h36 : numSides ≤ 36)
    (hh : 0 < height) (ht : 0 < topRadius) (hbt : topRadius < baseRadius) :
    ∀ i, i < numSides →
      V3.dot
        (V3.normalize (lateralCross numSides
          (verticesFromRings numSides
            (buildRings [⟨height, baseRadius, topRadius⟩])) 0 i))
        (radialOutward numSides i) < 0 := by
  intro i hi
  have hb : 0 < baseRadius := lt_trans ht hbt
  have hN : 0 < numSides := by omega
  have hrings := buildRings_single ⟨height, baseRadius, topRadius⟩ hh
  rw [hrings]
  have hlen : (0 : ℕ) + 1 <
      ([⟨0, baseRadius⟩, ⟨height, topRadius⟩] : List Ring).length := by simp
  have hclosed := lateralCross_closed numSides
    [⟨0, baseRadius⟩, ⟨height, topRadius⟩] 0 i hlen hi hN
  have hcrossne : lateralCross numSides
      (verticesFromRings numSides
        ([⟨0, baseRadius⟩, ⟨height, topRadius⟩] : List Ring)) 0 i ≠
      ⟨0, 0, 0⟩ := by
    apply lateralCross_ne_zero numSides _ 0 i h3 hlen hi
    · intro hc
      exact hh.ne (by simpa using hc.1)
    · simpa using hh.le
    · simpa using hb
  rw [dot_normalize]
  apply div_neg_of_neg_of_pos
  · rw [hclosed]
    simp only [V3.dot, radialOutward, List.getElem_cons_zero,
      List.getElem_cons_succ]
    have hK := next_angle_sin numSides i h3 hi
    have hKpos := sin_sample_step_pos numSides h3
    have hbR : (0 : ℝ) < (baseRadius : ℝ) := by exact_mod_cast hb
    have hhR : (0 : ℝ) < (height : ℝ) := by exact_mod_cast hh
    rw [show
        ((baseRadius : ℝ)) * (((⟨height, topRadius⟩ : Ring).y : ℝ) - ((0 : ℚ) : ℝ)) *
            (Real.sin (sampleAngle numSides i) -
              Real.sin (sampleAngle numSides ((i + 1) % numSides))) *
            Real.cos (sampleAngle numSides i) +
          ((baseRadius : ℝ)) * (((⟨height, topRadius⟩ : Ring).r : ℝ) - (baseRadius : ℝ)) *
            (Real.cos (sampleAngle numSides i) *
                Real.sin (sampleAngle numSides ((i + 1) % numSides)) -
              Real.sin (sampleAngle numSides i) *
                Real.cos (sampleAngle numSides ((i + 1) % numSides))) * 0 +
          ((baseRadius : ℝ)) * (((⟨height, topRadius⟩ : Ring).y : ℝ) - ((0 : ℚ) : ℝ)) *
            (Real.cos (sampleAngle numSides ((i + 1) % numSides)) -
              Real.cos (sampleAngle numSides i)) *
            Real.sin (sampleAngle numSides i) =
        -((baseRadius : ℝ) * ((height : ℝ) - ((0 : ℚ) : ℝ)) *
          (Real.cos (sampleAngle numSides i) *
              Real.sin (sampleAngle numSides ((i + 1) % numSides)) -
            Real.sin (sampleAngle numSides i) *
              Real.cos (sampleAngle numSides ((i + 1) % numSides)))) from by ring]
    rw [hK]
    have hcast0 : ((0 : ℚ) : ℝ) = 0 := by norm_num
    rw [hcast0]
    have hprod : 0 < (baseRadius : ℝ) * ((height : ℝ) - 0) *
        Real.sin (2 * Real.pi / numSides) :=
      mul_pos (mul_pos hbR (by linarith)) hKpos
    linarith
  · exact norm_pos_of_ne_zero _ hcrossne

/-- Witness for C7 at a concrete input. -/
theorem C7_lateral_normals_point_inward_witness :
    V3.dot
      (V3.normalize (lateralCross 4
        (verticesFromRings 4 (buildRings [⟨1, 2, 1⟩])) 0 0))
      (radialOutward 4 0) < 0 :=
  C7_lateral_normals_point_inward 4 1 2 1 (by decide) (by decide) (by decide)
    (by decide) (by decide) 0 (by decide)

/-- C8: for every triangle of distinct points, the single-level
generator's convention `cross(v2-v1, v3-v2)` and the multi-level
generator's `cross(v2-v1, v3-v1)` give exactly the same cross product —
same direction and magnitude — and hence the same normalized normal. -/
theorem C8_edge_vector_conventions_agree (v1 v2 v3 : V3)
    (h12 : v1 ≠ v2) (h13 : v1 ≠ v3) (h23 : v2 ≠ v3) :
    V3.cross (V3.subtract v2 v1) (V3.subtract v3 v2) =
      V3.cross (V3.subtract v2 v1) (V3.subtract v3 v1) ∧
    V3.normalize (V3.cross (V3.subtract v2 v1) (V3.subtract v3 v2)) =
      V3.normalize (V3.cross (V3.subtract v2 v1) (V3.subtract v3 v1)) := by
  have hcross : V3.cross (V3.subtract v2 v1) (V3.subtract v3 v2) =
      V3.cross (V3.subtract v2 v1) (V3.subtract v3 v1) := by
    simp only [V3.cross, V3.subtract]
    refine V3.ext ?_ ?_ ?_ <;> ring
  exact ⟨hcross, by rw [hcross]⟩

/-- Witness for C8 at a concrete triangle. -/
theorem C8_edge_vector_conventions_agree_witness :
    V3.cross (V3.subtract ⟨1, 0, 0⟩ ⟨0, 0, 0⟩) (V3.subtract ⟨0, 1, 0⟩ ⟨1, 0, 0⟩) =
      V3.cross (V3.subtract ⟨1, 0, 0⟩ ⟨0, 0, 0⟩)
        (V3.subtract ⟨0, 1, 0⟩ ⟨0, 0, 0⟩) :=
  (C8_edge_vector_conventions_agree ⟨0, 0, 0⟩ ⟨1, 0, 0⟩ ⟨0, 1, 0⟩
    (by simp [V3.mk.injEq]) (by simp [V3.mk.injEq]) (by simp [V3.mk.injEq])).1

/-! ## Input validation lemmas -/

theorem parseLevelsFrom_error_of_bad (args : List ℚ) (h b t : ℚ) :
    ∀ (n start : ℕ),
      (∃ k < n, (levelAt args h b t (start + k)).height ≤ 0 ∨
        (levelAt args h b t (start + k)).baseRadius ≤ 0 ∨
        (levelAt args h b t (start + k)).topRadius ≤ 0) →
      ∃ e, parseLevelsFrom args h b t start n = .error e := by
  intro n
  induction n with
  | zero =>
    rintro start ⟨k, hk, _⟩
    omega
  | succ n ih =>
    rintro start ⟨k, hk, hbad⟩
    by_cases hfirst : (levelAt args h b t start).height ≤ 0 ∨
        (levelAt args h b t start).baseRadius ≤ 0 ∨
        (levelAt args h b t start).topRadius ≤ 0
    · refine ⟨"Height and radius for levels must be positive values", ?_⟩
      simp only [parseLevelsFrom]
      rw [if_pos hfirst]
    · have hk0 : k ≠ 0 := by
        rintro rfl
        exact hfirst (by simpa using hbad)
      obtain ⟨e, he⟩ := ih (start + 1)
        ⟨k - 1, by omega, by
          rw [show start + 1 + (k - 1) = start + k from by omega]
          exact hbad⟩
      refine ⟨e, ?_⟩
      simp only [parseLevelsFrom]
      rw [if_neg hfirst, he]
      rfl

theorem parseLevelsFrom_ok_of_good (args : List ℚ) (h b t : ℚ) :
    ∀ (n start : ℕ),
      (∀ k < n, ¬((levelAt args h b t (start + k)).height ≤ 0 ∨
        (levelAt args h b t (start + k)).baseRadius ≤ 0 ∨
        (levelAt args h b t (start + k)).topRadius ≤ 0)) →
      parseLevelsFrom args h b t start n =
        .ok ((List.range n).map fun k => levelAt args h b t (start + k)) := by
  intro n
  induction n with
  | zero => intro start _; rfl
  | succ n ih =>
    intro start hall
    simp only [parseLevelsFrom]
    rw [if_neg (by simpa using hall 0 (by omega))]
    rw [ih (start + 1) fun k hk => by
      rw [show start + 1 + k = start + (k + 1) from by omega]
      exact hall (k + 1) (by omega)]
    rw [List.range_succ_eq_map, List.map_cons, List.map_map]
    simp only [Except.map, Nat.add_zero]
    congr 2
    refine List.map_congr_left fun x _ => ?_
    simp only [Function.comp_apply]
    rw [show start + 1 + x = start + (x + 1) from by omega]

theorem getInputs_error_mainRun_error (args : List ℚ) (e : String)
    (he : getInputs args = .error e) : mainRun args = .error e := by
  simp [mainRun, he]

/-- C9: whenever `numSides` is outside `[3, 36]` or any height or radius
(of the base building or of any requested level) is non-positive,
`getInputs` exits with an error and `main`'s mesh pipeline (rings,
vertices, faces, normals) never runs. -/
theorem C9_validator_rejects_invalid (args : List ℚ)
    (hbad :
      (argNumSides args < 3 ∨ 36 < argNumSides args) ∨
      argHeight args ≤ 0 ∨ argBaseRadius args ≤ 0 ∨ argTopRadius args ≤ 0 ∨
      (0 < argNumLevels args ∧
        ∃ k < (argNumLevels args).ceil.toNat,
          (levelAt args (argHeight args) (argBaseRadius args)
            (argTopRadius args) k).height ≤ 0 ∨
          (levelAt args (argHeight args) (argBaseRadius args)
            (argTopRadius args) k).baseRadius ≤ 0 ∨
          (levelAt args (argHeight args) (argBaseRadius args)
            (argTopRadius args) k).topRadius ≤ 0)) :
    (∃ e, getInputs args = .error e) ∧ ∃ e, mainRun args = .error e := by
  have hget : ∃ e, getInputs args = .error e := by
    simp only [getInputs]
    split_ifs with hc1 hc2 hc3 hc4
    · exact ⟨_, rfl⟩
    · exact ⟨_, rfl⟩
    · exact ⟨_, rfl⟩
    · rcases hbad with hx | hx | hx | hx | ⟨_, hlv⟩
      · exact absurd hx hc1
      · exact absurd (Or.inl hx) hc2
      · exact absurd (Or.inr (Or.inl hx)) hc2
      · exact absurd (Or.inr (Or.inr hx)) hc2
      · obtain ⟨e, he⟩ := parseLevelsFrom_error_of_bad args
          (argHeight args) (argBaseRadius args) (argTopRadius args)
          (argNumLevels args).ceil.toNat 0 (by simpa using hlv)
        exact ⟨e, by rw [he]⟩
    · rcases hbad with hx | hx | hx | hx | ⟨hpos', _⟩
      · exact absurd hx hc1
      · exact absurd (Or.inl hx) hc2
      · exact absurd (Or.inr (Or.inl hx)) hc2
      · exact absurd (Or.inr (Or.inr hx)) hc2
      · exact absurd hpos' hc3
  obtain ⟨e, he⟩ := hget
  exact ⟨⟨e, he⟩, e, getInputs_error_mainRun_error args e he⟩

/-- Witness for C9 at a concrete input (numSides = 2). -/
theorem C9_validator_rejects_invalid_witness :
    (∃ e, getInputs [2] = .error e) ∧ ∃ e, mainRun [2] = .error e :=
  C9_validator_rejects_invalid [2] (by decide)

/-- C10 (implicit): when `numLevels > 0` but some or all of a level's
three command-line arguments are absent, `getInputs` does not reject —
each missing level height, base radius or top radius defaults to the base
building's value (`levelAt` falls back through `Option.getD`), and the
argument-count check only rejects a surplus, never a shortage: with at
most `5 + 3*numLevels` arguments parsing succeeds. -/
theorem C10_missing_level_args_default (args : List ℚ)
    (hns : ¬(argNumSides args < 3 ∨ 36 < argNumSides args))
    (hpos : ¬(argHeight args ≤ 0 ∨ argBaseRadius args ≤ 0 ∨
      argTopRadius args ≤ 0))
    (hlv : 0 < argNumLevels args)
    (hcount : ¬((args.length : ℚ) > 5 + argNumLevels args * 3))
    (hlevels : ∀ k < (argNumLevels args).ceil.toNat,
      ¬((levelAt args (argHeight args) (argBaseRadius args)
          (argTopRadius args) k).height ≤ 0 ∨
        (levelAt args (argHeight args) (argBaseRadius args)
          (argTopRadius args) k).baseRadius ≤ 0 ∨
        (levelAt args (argHeight args) (argBaseRadius args)
          (argTopRadius args) k).topRadius ≤ 0)) :
    getInputs args = .ok
      ⟨argNumSides args, argHeight args, argBaseRadius args, argTopRadius args,
       argNumLevels args,
       ⟨argHeight args, argBaseRadius args, argTopRadius args⟩ ::
         (List.range (argNumLevels args).ceil.toNat).map
           (levelAt args (argHeight args) (argBaseRadius args)
             (argTopRadius args))⟩ := by
  simp only [getInputs]
  rw [if_neg hns, if_neg hpos, if_pos hlv, if_neg hcount]
  rw [parseLevelsFrom_ok_of_good args
    (argHeight args) (argBaseRadius args) (argTopRadius args)
    (argNumLevels args).ceil.toNat 0
    (fun k hk => by simpa using hlevels k hk)]
  have hzero : (List.range (argNumLevels args).ceil.toNat).map
      (fun k => levelAt args (argHeight args) (argBaseRadius args)
        (argTopRadius args) (0 + k)) =
      (List.range (argNumLevels args).ceil.toNat).map
        (levelAt args (argHeight args) (argBaseRadius args)
          (argTopRadius args)) :=
    List.map_congr_left fun x _ => by rw [Nat.zero_add]
  rw [hzero]

/-- Witness for C10 at a concrete input: `numLevels = 2` with all six
level arguments absent, silently defaulting both levels to the base
building's parameters. -/
theorem C10_missing_level_args_default_witness :
    getInputs [8, 6, 1, 1, 2] =
      .ok ⟨8, 6, 1, 1, 2, [⟨6, 1, 1⟩, ⟨6, 1, 1⟩, ⟨6, 1, 1⟩]⟩ := by
  rw [C10_missing_level_args_default [8, 6, 1, 1, 2] (by decide) (by decide)
    (by decide) (by norm_num [argNumLevels]) (by decide)]
  rfl

end CG2

